import Mathlib

/-!
# Verification of the go2cache cache table

A shallow embedding of the repository's two source files (`cacheItem.go`
and `cacheTable.go`) and proofs of the specification claims about them.

Modelling conventions:

* Go `interface{}` values (keys, payloads, extra loader arguments) are
  modelled by the inductive type `GoVal`, which includes a `slice`
  constructor because `Value` passes its variadic `args` slice to the
  loader as a single value.
* `time.Time` instants and `time.Duration` durations are both modelled as
  `Int` (nanosecond counts); `now.Sub(accessedOn)` becomes subtraction.
  Each call to `time.Now()` in the source becomes an explicit `Int`
  parameter of the corresponding Lean function.
* The Go map `items map[interface{}]*CacheItem` is modelled as an
  association list `List (GoVal × CacheItem)` with (for reachable tables)
  pairwise-distinct keys; pointer mutation of a stored item is modelled by
  re-inserting the updated value under its key.
* User callbacks (`addedItem`, `aboutToDeleteItem`, `aboutToExpire`) are
  modelled by opaque identifiers (`Nat`); operations return the list of
  callback/loader invocation `Event`s they perform, in order, instead of
  running side effects.
* `*time.Timer` is modelled as `Option Bool`: `none` is a nil timer,
  `some true` an armed timer, `some false` a stopped one.
* The table's `sync.RWMutex` is sequentially invisible for the correctly
  locked operations and is omitted there; it is modelled explicitly for
  `Count`, whose lock usage is the subject of a claim.
-/

namespace Go2cache

/-- A Go `interface{}` value: enough structure for keys, payloads and
variadic argument slices. -/
inductive GoVal where
  | vint : Int → GoVal
  | vstr : String → GoVal
  | slice : List GoVal → GoVal

mutual

/-- Boolean equality on `GoVal`, recursing through slices. -/
def GoVal.beq : GoVal → GoVal → Bool
  | .vint a, .vint b => a == b
  | .vstr a, .vstr b => a == b
  | .slice a, .slice b => GoVal.beqList a b
  | _, _ => false

/-- Boolean equality on lists of `GoVal`. -/
def GoVal.beqList : List GoVal → List GoVal → Bool
  | [], [] => true
  | x :: xs, y :: ys => GoVal.beq x y && GoVal.beqList xs ys
  | _, _ => false

end

mutual

theorem GoVal.eq_of_beq : ∀ {a b : GoVal}, GoVal.beq a b = true → a = b
  | .vint a, .vint b, h => by
    simp only [GoVal.beq, beq_iff_eq] at h
    rw [h]
  | .vstr a, .vstr b, h => by
    simp only [GoVal.beq, beq_iff_eq] at h
    rw [h]
  | .slice a, .slice b, h => by
    have hab : a = b := GoVal.eqList_of_beqList (by simpa [GoVal.beq] using h)
    rw [hab]
  | .vint _, .vstr _, h => by simp [GoVal.beq] at h
  | .vint _, .slice _, h => by simp [GoVal.beq] at h
  | .vstr _, .vint _, h => by simp [GoVal.beq] at h
  | .vstr _, .slice _, h => by simp [GoVal.beq] at h
  | .slice _, .vint _, h => by simp [GoVal.beq] at h
  | .slice _, .vstr _, h => by simp [GoVal.beq] at h

theorem GoVal.eqList_of_beqList : ∀ {a b : List GoVal}, GoVal.beqList a b = true → a = b
  | [], [], _ => rfl
  | x :: xs, y :: ys, h => by
    simp only [GoVal.beqList, Bool.and_eq_true] at h
    rw [GoVal.eq_of_beq h.1, GoVal.eqList_of_beqList h.2]
  | [], _ :: _, h => by simp [GoVal.beqList] at h
  | _ :: _, [], h => by simp [GoVal.beqList] at h

end

mutual

theorem GoVal.beq_rfl : ∀ a : GoVal, GoVal.beq a a = true
  | .vint a => by simp [GoVal.beq]
  | .vstr a => by simp [GoVal.beq]
  | .slice a => by
    simp only [GoVal.beq]
    exact GoVal.beqList_rfl a

theorem GoVal.beqList_rfl : ∀ a : List GoVal, GoVal.beqList a a = true
  | [] => rfl
  | x :: xs => by
    simp only [GoVal.beqList, Bool.and_eq_true]
    exact ⟨GoVal.beq_rfl x, GoVal.beqList_rfl xs⟩

end

instance : DecidableEq GoVal := fun a b =>
  if h : GoVal.beq a b = true then isTrue (GoVal.eq_of_beq h)
  else isFalse (fun hh => h (hh ▸ GoVal.beq_rfl a))

/-- The two error values of the package (`ErrKeyNotFound`,
`ErrKeyNotFoundOrLoadable`). -/
inductive CacheError where
  | keyNotFound
  | keyNotFoundOrLoadable
  deriving DecidableEq

/-- `CacheItem` from `cacheItem.go`. Callbacks are opaque identifiers. -/
structure CacheItem where
  key : GoVal
  data : GoVal
  lifeSpan : Int
  createdOn : Int
  accessedOn : Int
  accessCount : Int
  aboutToExpire : List Nat
  deriving DecidableEq

/-- An observable side effect of a table operation: a user callback or the
miss-loader being invoked, with its actual arguments. -/
inductive Event where
  | addedItemCb : Nat → CacheItem → Event
  | aboutToDeleteCb : Nat → CacheItem → Event
  | aboutToExpireCb : Nat → GoVal → Event
  | loaderCall : GoVal → List GoVal → Event
  deriving DecidableEq

/-- `CacheTable` from `cacheTable.go`. `loadData` takes the key and the
variadic argument list the Go call site actually passes. -/
structure CacheTable where
  name : String
  items : List (GoVal × CacheItem)
  cleanupTimer : Option Bool
  cleanupInterval : Int
  logger : Option Nat
  loadData : Option (GoVal → List GoVal → Option CacheItem)
  addedItem : List Nat
  aboutToDeleteItem : List Nat

/-- Go map read `items[key]`: first entry with the given key. -/
def lookupKey : List (GoVal × CacheItem) → GoVal → Option CacheItem
  | [], _ => none
  | (k, v) :: rest, key => if k = key then some v else lookupKey rest key

/-- Go map write `items[key] = item`: replace the entry if present,
otherwise append. -/
def insertKey : List (GoVal × CacheItem) → GoVal → CacheItem → List (GoVal × CacheItem)
  | [], key, item => [(key, item)]
  | (k, v) :: rest, key, item =>
    if k = key then (key, item) :: rest else (k, v) :: insertKey rest key item

/-- Go map delete `delete(items, key)`: remove the entry with the given
key (the first one, and under the map invariant the only one). -/
def eraseKey : List (GoVal × CacheItem) → GoVal → List (GoVal × CacheItem)
  | [], _ => []
  | (k, v) :: rest, key => if k = key then rest else (k, v) :: eraseKey rest key

/-- `NewCacheItem` (`cacheItem.go`): `createdOn = accessedOn = now`,
`accessCount = 0`, no expiry callbacks. -/
def NewCacheItem (key : GoVal) (lifeSpan : Int) (data : GoVal) (now : Int) : CacheItem :=
  { key := key
    data := data
    lifeSpan := lifeSpan
    createdOn := now
    accessedOn := now
    accessCount := 0
    aboutToExpire := [] }

/-- `KeepAlive` (`cacheItem.go`): set `accessedOn` to now and increment
`accessCount`. -/
def KeepAlive (item : CacheItem) (now : Int) : CacheItem :=
  { item with accessedOn := now, accessCount := item.accessCount + 1 }

/-- `deleteInternal` (`cacheTable.go`): look the key up; if absent return
`ErrKeyNotFound`; otherwise fire the table's `aboutToDeleteItem` callbacks
with the item, then the item's `aboutToExpire` callbacks with the key, and
remove the entry from the map. -/
def deleteInternal (table : CacheTable) (key : GoVal) :
    Except CacheError CacheItem × List Event × CacheTable :=
  match lookupKey table.items key with
  | none => (.error .keyNotFound, [], table)
  | some r =>
    let evs :=
      table.aboutToDeleteItem.map (fun cb => Event.aboutToDeleteCb cb r) ++
      r.aboutToExpire.map (fun cb => Event.aboutToExpireCb cb key)
    (.ok r, evs, { table with items := eraseKey table.items key })

/-- The loop body of `expirationCheck`: visit the snapshot of the item
map, deleting expired entries through `deleteInternal` and accumulating
the smallest remaining duration exactly as the Go loop does. -/
def expLoop (now : Int) (toVisit : List (GoVal × CacheItem))
    (smallest : Int) (evs : List Event) (table : CacheTable) :
    Int × List Event × CacheTable :=
  match toVisit with
  | [] => (smallest, evs, table)
  | (key, item) :: rest =>
    if item.lifeSpan = 0 then
      expLoop now rest smallest evs table
    else if item.lifeSpan ≤ now - item.accessedOn then
      let d := deleteInternal table key
      expLoop now rest smallest (evs ++ d.2.1) d.2.2
    else
      let rem := item.lifeSpan - (now - item.accessedOn)
      expLoop now rest (if smallest = 0 ∨ rem < smallest then rem else smallest) evs table

/-- `expirationCheck` (`cacheTable.go`): stop any pending timer, sweep the
map, set `cleanupInterval` to the accumulated smallest remaining duration
and arm a new timer when it is positive. -/
def expirationCheck (table : CacheTable) (now : Int) : List Event × CacheTable :=
  let table0 := { table with cleanupTimer := table.cleanupTimer.map (fun _ => false) }
  let r := expLoop now table0.items 0 [] table0
  let table1 := { r.2.2 with
    cleanupInterval := r.1
    cleanupTimer := if r.1 > 0 then some true else r.2.2.cleanupTimer }
  (r.2.1, table1)

/-- `addInternal` (`cacheTable.go`): store the item (overwriting any entry
under the same key), fire the `addedItem` callbacks, then run a
synchronous `expirationCheck` when the new item's finite lifespan is
shorter than the scheduled interval (or none is scheduled).
`checkNow` is the `time.Now()` of that nested sweep. -/
def addInternal (table : CacheTable) (item : CacheItem) (checkNow : Int) :
    List Event × CacheTable :=
  let table1 := { table with items := insertKey table.items item.key item }
  let expDur := table1.cleanupInterval
  let evs := table1.addedItem.map (fun cb => Event.addedItemCb cb item)
  if item.lifeSpan > 0 ∧ (expDur = 0 ∨ item.lifeSpan < expDur) then
    let r := expirationCheck table1 checkNow
    (evs ++ r.1, r.2)
  else
    (evs, table1)

/-- `Add` (`cacheTable.go`): build a fresh item with `NewCacheItem` at
time `now` and insert it via `addInternal`; return the created item. -/
def Add (table : CacheTable) (key : GoVal) (lifeSpan : Int) (data : GoVal)
    (now checkNow : Int) : CacheItem × List Event × CacheTable :=
  let item := NewCacheItem key lifeSpan data now
  let r := addInternal table item checkNow
  (item, r.1, r.2)

/-- `Delete` (`cacheTable.go`): lock and delegate to `deleteInternal`. -/
def Delete (table : CacheTable) (key : GoVal) :
    Except CacheError CacheItem × List Event × CacheTable :=
  deleteInternal table key

/-- `Exists` (`cacheTable.go`): read-only presence check. -/
def Exists (table : CacheTable) (key : GoVal) : Bool :=
  (lookupKey table.items key).isSome

/-- `NotFoundAdd` (`cacheTable.go`): under the table lock, return `false`
if the key exists, else create and insert the item as `Add` does and
return `true`. -/
def NotFoundAdd (table : CacheTable) (key : GoVal) (lifeSpan : Int) (data : GoVal)
    (now checkNow : Int) : Bool × List Event × CacheTable :=
  if (lookupKey table.items key).isSome then
    (false, [], table)
  else
    let item := NewCacheItem key lifeSpan data now
    let r := addInternal table item checkNow
    (true, r.1, r.2)

/-- `Value` (`cacheTable.go`): on a hit, `KeepAlive` the item and return
it; on a miss with a loader, call `loadData(key, args)` — note the Go call
site passes the variadic slice `args` as a single argument, so the loader
receives the one-element list `[GoVal.slice args]` — and if it yields an
item, re-add its data and lifespan under the key via `Add` and return the
loader's item; otherwise return the applicable error. -/
def Value (table : CacheTable) (key : GoVal) (args : List GoVal)
    (now checkNow : Int) : Except CacheError CacheItem × List Event × CacheTable :=
  match lookupKey table.items key with
  | some r =>
    let r' := KeepAlive r now
    (.ok r', [], { table with items := insertKey table.items key r' })
  | none =>
    match table.loadData with
    | some f =>
      let loaderArgs := [GoVal.slice args]
      match f key loaderArgs with
      | some item =>
        let r := Add table key item.lifeSpan item.data now checkNow
        (.ok item, Event.loaderCall key loaderArgs :: r.2.1, r.2.2)
      | none => (.error .keyNotFoundOrLoadable, [Event.loaderCall key loaderArgs], table)
    | none => (.error .keyNotFound, [], table)

/-- `Flush` (`cacheTable.go`): replace the map with an empty one, reset
`cleanupInterval` to 0 and stop a non-nil timer. No callbacks fire. -/
def Flush (table : CacheTable) : List Event × CacheTable :=
  ([], { table with
    items := []
    cleanupInterval := 0
    cleanupTimer := table.cleanupTimer.map (fun _ => false) })

/-- The runtime state of a `sync.RWMutex`. -/
structure RWMutex where
  readers : Nat
  writer : Bool
  deriving DecidableEq

/-- A Go runtime fatal error relevant to this package. -/
inductive GoPanic where
  | unlockOfUnlockedRWMutex
  deriving DecidableEq

/-- `RLock`: acquire a read lock (succeeds sequentially when no writer
holds the mutex). -/
def RWMutex.rLock (m : RWMutex) : RWMutex :=
  { m with readers := m.readers + 1 }

/-- `Unlock`: release the write lock; Go throws
`sync: Unlock of unlocked RWMutex` when the write lock is not held. -/
def RWMutex.unlock (m : RWMutex) : Except GoPanic RWMutex :=
  if m.writer then .ok { m with writer := false } else .error .unlockOfUnlockedRWMutex

/-- A mutex held by nobody, the state of a table's lock between
operations. -/
def RWMutex.free : RWMutex :=
  { readers := 0, writer := false }

/-- `Count` (`cacheTable.go`): `RLock`, compute `len(table.items)`, then
the deferred `Unlock` (sic — not `RUnlock`) runs against the read lock. -/
def Count (table : CacheTable) (m : RWMutex) : Except GoPanic (Int × RWMutex) :=
  let m1 := m.rLock
  let n : Int := table.items.length
  match m1.unlock with
  | .ok m2 => .ok (n, m2)
  | .error p => .error p

/-! ## Derived definitions used in specification statements -/

/-- Iterated `KeepAlive` at the given sequence of access times. -/
def keepAliveTrace (item : CacheItem) : List Int → CacheItem
  | [] => item
  | t :: ts => keepAliveTrace (KeepAlive item t) ts

/-- The sweep's deletion condition at time `now`: a finite lifespan whose
idle time has reached it. -/
def expiredAt (now : Int) (kv : GoVal × CacheItem) : Bool :=
  !decide (kv.2.lifeSpan = 0) && decide (kv.2.lifeSpan ≤ now - kv.2.accessedOn)

/-- A surviving finite-lifespan entry at time `now`. -/
def survFiniteAt (now : Int) (kv : GoVal × CacheItem) : Bool :=
  !decide (kv.2.lifeSpan = 0) && decide (now - kv.2.accessedOn < kv.2.lifeSpan)

/-- Remaining time before expiry of an entry at time `now`. -/
def remainingAt (now : Int) (kv : GoVal × CacheItem) : Int :=
  kv.2.lifeSpan - (now - kv.2.accessedOn)

/-- The events fired by one internal delete of entry `kv`: the table's
about-to-delete callbacks with the item, then the item's about-to-expire
callbacks with the key. -/
def delEvents (cbs : List Nat) (kv : GoVal × CacheItem) : List Event :=
  cbs.map (fun cb => Event.aboutToDeleteCb cb kv.2) ++
  kv.2.aboutToExpire.map (fun cb => Event.aboutToExpireCb cb kv.1)

/-- The events a sweep over the entries `tv` fires, in scan order: each
expired entry contributes one internal-delete event block. -/
def sweepEvents (cbs : List Nat) (now : Int) : List (GoVal × CacheItem) → List Event
  | [] => []
  | kv :: rest =>
    if expiredAt now kv then delEvents cbs kv ++ sweepEvents cbs now rest
    else sweepEvents cbs now rest

/-- The keys of the entries of `tv` that are expired at `now`. -/
def expiredKeys (now : Int) (tv : List (GoVal × CacheItem)) : List GoVal :=
  (tv.filter (expiredAt now)).map Prod.fst

/-- Remaining times of the surviving finite-lifespan entries of `tv`. -/
def survRemaining (now : Int) (tv : List (GoVal × CacheItem)) : List Int :=
  (tv.filter (survFiniteAt now)).map (remainingAt now)

/-- One step of the sweep's smallest-duration accumulation. -/
def goMinStep (a r : Int) : Int := if a = 0 ∨ r < a then r else a

/-- The sweep's smallest-duration fold. -/
def minFold (s : Int) (l : List Int) : Int := l.foldl goMinStep s

/-- The minimum of a list of integers, `none` when empty. -/
def listMin : List Int → Option Int
  | [] => none
  | x :: xs => some (match listMin xs with
    | none => x
    | some m => min x m)

/-- Written from the spec's words, to be compared with the sweep's fold:
the minimum remaining time `lifeSpan - idle_time` over all surviving
finite-lifespan items, or 0 if no such item survives. -/
def specMinRemaining (items : List (GoVal × CacheItem)) (now : Int) : Int :=
  (listMin (survRemaining now items)).getD 0

/-! ## Concrete fixtures for witnesses and counterexamples -/

/-- An immortal item with two expiry callbacks. -/
def itemA : CacheItem :=
  { key := GoVal.vstr "a", data := GoVal.vint 7, lifeSpan := 0, createdOn := 0,
    accessedOn := 0, accessCount := 0, aboutToExpire := [10, 11] }

/-- A table holding `itemA`, with table-level callbacks registered. -/
def tableA : CacheTable :=
  { name := "t", items := [(GoVal.vstr "a", itemA)], cleanupTimer := none,
    cleanupInterval := 0, logger := none, loadData := none,
    addedItem := [1], aboutToDeleteItem := [2, 3] }

/-- A table whose loader always reports "no item". -/
def tableLoaderNone : CacheTable :=
  { name := "t", items := [], cleanupTimer := none, cleanupInterval := 0,
    logger := none, loadData := some (fun _ _ => none), addedItem := [],
    aboutToDeleteItem := [] }

/-- A table with no loader and no items. -/
def tableEmpty : CacheTable :=
  { name := "t", items := [], cleanupTimer := none, cleanupInterval := 0,
    logger := none, loadData := none, addedItem := [], aboutToDeleteItem := [] }

/-- An item as a loader could return it: its stats differ from a freshly
created item's. -/
def loadedItem : CacheItem :=
  { key := GoVal.vstr "elsewhere", data := GoVal.vint 42, lifeSpan := 50, createdOn := 100,
    accessedOn := 100, accessCount := 9, aboutToExpire := [77] }

/-- A loader that yields `loadedItem` exactly when its variadic argument
list is the two plain values `vint 1, vint 2`. -/
def pickyLoader : GoVal → List GoVal → Option CacheItem :=
  fun _ as => if as = [GoVal.vint 1, GoVal.vint 2] then some loadedItem else none

/-- An empty table configured with `pickyLoader`. -/
def tablePicky : CacheTable :=
  { name := "t", items := [], cleanupTimer := none, cleanupInterval := 0,
    logger := none, loadData := some pickyLoader, addedItem := [],
    aboutToDeleteItem := [] }

/-- An empty table whose loader always returns `loadedItem`. -/
def tableLoaderSome : CacheTable :=
  { name := "t", items := [], cleanupTimer := none, cleanupInterval := 0,
    logger := none, loadData := some (fun _ _ => some loadedItem), addedItem := [],
    aboutToDeleteItem := [] }

/-- An item that has been idle past its lifespan at time 10. -/
def oldItem : CacheItem :=
  { key := GoVal.vstr "old", data := GoVal.vint 1, lifeSpan := 4, createdOn := 0,
    accessedOn := 0, accessCount := 0, aboutToExpire := [21] }

/-- A finite-lifespan item still alive at time 10, with 3 remaining. -/
def freshItem : CacheItem :=
  { key := GoVal.vstr "fresh", data := GoVal.vint 2, lifeSpan := 13, createdOn := 0,
    accessedOn := 0, accessCount := 0, aboutToExpire := [] }

/-- A table with an immortal, an expired and a surviving item. -/
def tableSweep : CacheTable :=
  { name := "t",
    items := [(GoVal.vstr "a", itemA), (GoVal.vstr "old", oldItem),
      (GoVal.vstr "fresh", freshItem)],
    cleanupTimer := some true, cleanupInterval := 4, logger := none, loadData := none,
    addedItem := [], aboutToDeleteItem := [2] }

/-! ## Association-list lemmas -/

theorem lookupKey_insertKey_self (l : List (GoVal × CacheItem)) (k : GoVal) (v : CacheItem) :
    lookupKey (insertKey l k v) k = some v := by
  induction l with
  | nil => simp [insertKey, lookupKey]
  | cons hd tl ih =>
    obtain ⟨k', v'⟩ := hd
    by_cases h : k' = k
    · simp [insertKey, h, lookupKey]
    · simp [insertKey, h, lookupKey, ih]

theorem lookupKey_eq_none (l : List (GoVal × CacheItem)) (k : GoVal)
    (h : ∀ kv ∈ l, kv.1 ≠ k) : lookupKey l k = none := by
  induction l with
  | nil => rfl
  | cons hd tl ih =>
    obtain ⟨k0, v0⟩ := hd
    have h0 : k0 ≠ k := h (k0, v0) (List.mem_cons_self _ _)
    simp only [lookupKey, if_neg h0]
    exact ih (fun kv hkv => h kv (List.mem_cons_of_mem _ hkv))

theorem lookupKey_eraseKey_ne (l : List (GoVal × CacheItem)) (k k' : GoVal)
    (h : k' ≠ k) : lookupKey (eraseKey l k) k' = lookupKey l k' := by
  induction l with
  | nil => simp [eraseKey]
  | cons hd tl ih =>
    obtain ⟨k0, v0⟩ := hd
    by_cases h0 : k0 = k
    · subst h0
      have hne : k0 ≠ k' := fun hh => h hh.symm
      simp [eraseKey, lookupKey, hne]
    · by_cases h1 : k0 = k'
      · simp [eraseKey, h0, lookupKey, h1, h]
      · simp [eraseKey, h0, lookupKey, h1, ih]

theorem lookupKey_of_mem (l : List (GoVal × CacheItem)) (k : GoVal) (v : CacheItem)
    (hnd : (l.map Prod.fst).Nodup) (hmem : (k, v) ∈ l) :
    lookupKey l k = some v := by
  induction l with
  | nil => cases hmem
  | cons hd tl ih =>
    obtain ⟨k0, v0⟩ := hd
    simp only [List.map_cons, List.nodup_cons] at hnd
    rcases List.mem_cons.mp hmem with heq | htl
    · cases heq
      simp [lookupKey]
    · have hk0 : k0 ≠ k := by
        intro hh
        exact hnd.1 (hh ▸ (List.mem_map.mpr ⟨(k, v), htl, rfl⟩))
      simp [lookupKey, hk0, ih hnd.2 htl]

theorem filter_keys_eq_self (l : List (GoVal × CacheItem)) (k : GoVal)
    (h : ∀ kv ∈ l, kv.1 ≠ k) :
    l.filter (fun kv => !decide (kv.1 = k)) = l :=
  List.filter_eq_self.mpr (fun kv hkv => by simpa using h kv hkv)

theorem eraseKey_eq_filter (l : List (GoVal × CacheItem)) (k : GoVal)
    (hnd : (l.map Prod.fst).Nodup) :
    eraseKey l k = l.filter (fun kv => !decide (kv.1 = k)) := by
  induction l with
  | nil => rfl
  | cons hd tl ih =>
    obtain ⟨k0, v0⟩ := hd
    simp only [List.map_cons, List.nodup_cons] at hnd
    by_cases h0 : k0 = k
    · subst h0
      have h1 : ∀ kv ∈ tl, kv.1 ≠ k0 := fun kv hkv hh =>
        hnd.1 (List.mem_map.mpr ⟨kv, hkv, hh⟩)
      simp [eraseKey, List.filter_cons, filter_keys_eq_self tl k0 h1]
    · simp [eraseKey, h0, List.filter_cons, ih hnd.2]

theorem lookupKey_filter_some (l : List (GoVal × CacheItem)) (k : GoVal) (v : CacheItem)
    (p : GoVal × CacheItem → Bool)
    (hl : lookupKey l k = some v) (hp : p (k, v) = true) :
    lookupKey (l.filter p) k = some v := by
  induction l with
  | nil => simp [lookupKey] at hl
  | cons hd tl ih =>
    obtain ⟨k0, v0⟩ := hd
    by_cases h0 : k0 = k
    · subst h0
      simp [lookupKey] at hl
      subst hl
      simp [List.filter_cons, hp, lookupKey]
    · simp only [lookupKey, if_neg h0] at hl
      by_cases hph : p (k0, v0) = true
      · simp [List.filter_cons, hph, lookupKey, h0, ih hl]
      · simp only [Bool.not_eq_true] at hph
        simp [List.filter_cons, hph, ih hl]

theorem lookupKey_filter_none (l : List (GoVal × CacheItem)) (k : GoVal) (v : CacheItem)
    (p : GoVal × CacheItem → Bool)
    (hnd : (l.map Prod.fst).Nodup)
    (hl : lookupKey l k = some v) (hp : p (k, v) = false) :
    lookupKey (l.filter p) k = none := by
  induction l with
  | nil => simp [lookupKey] at hl
  | cons hd tl ih =>
    obtain ⟨k0, v0⟩ := hd
    simp only [List.map_cons, List.nodup_cons] at hnd
    by_cases h0 : k0 = k
    · subst h0
      simp [lookupKey] at hl
      subst hl
      simp only [List.filter_cons, hp]
      refine lookupKey_eq_none _ _ (fun kv hkv hh => ?_)
      exact hnd.1 (hh ▸ List.mem_map.mpr ⟨kv, (List.mem_filter.mp hkv).1, rfl⟩)
    · simp only [lookupKey, if_neg h0] at hl
      by_cases hph : p (k0, v0) = true
      · simp [List.filter_cons, hph, lookupKey, h0, ih hnd.2 hl]
      · simp only [Bool.not_eq_true] at hph
        simp [List.filter_cons, hph, ih hnd.2 hl]

theorem eraseKey_sublist (l : List (GoVal × CacheItem)) (k : GoVal) :
    List.Sublist (eraseKey l k) l := by
  induction l with
  | nil => exact List.Sublist.refl _
  | cons hd tl ih =>
    obtain ⟨k0, v0⟩ := hd
    by_cases h0 : k0 = k
    · simp only [eraseKey, if_pos h0]
      exact (List.Sublist.refl tl).cons _
    · simp only [eraseKey, if_neg h0]
      exact ih.cons₂ _

theorem nodup_keys_eraseKey (l : List (GoVal × CacheItem)) (k : GoVal)
    (hnd : (l.map Prod.fst).Nodup) : ((eraseKey l k).map Prod.fst).Nodup :=
  hnd.sublist ((eraseKey_sublist l k).map Prod.fst)

theorem mem_keys_insertKey (l : List (GoVal × CacheItem)) (k : GoVal) (v : CacheItem)
    (x : GoVal) (hx : x ∈ (insertKey l k v).map Prod.fst) :
    x = k ∨ x ∈ l.map Prod.fst := by
  induction l with
  | nil =>
    simp only [insertKey, List.map_cons, List.map_nil, List.mem_singleton] at hx
    exact Or.inl hx
  | cons hd tl ih =>
    obtain ⟨k0, v0⟩ := hd
    by_cases h0 : k0 = k
    · simp only [insertKey, if_pos h0, List.map_cons, List.mem_cons] at hx
      rcases hx with hx | hx
      · exact Or.inl hx
      · exact Or.inr (by simp [hx])
    · simp only [insertKey, if_neg h0, List.map_cons, List.mem_cons] at hx
      rcases hx with hx | hx
      · exact Or.inr (by simp [hx])
      · rcases ih hx with hx | hx
        · exact Or.inl hx
        · exact Or.inr (by simp [hx])

theorem nodup_keys_insertKey (l : List (GoVal × CacheItem)) (k : GoVal) (v : CacheItem)
    (hnd : (l.map Prod.fst).Nodup) : ((insertKey l k v).map Prod.fst).Nodup := by
  induction l with
  | nil => simp [insertKey]
  | cons hd tl ih =>
    obtain ⟨k0, v0⟩ := hd
    simp only [List.map_cons, List.nodup_cons] at hnd
    by_cases h0 : k0 = k
    · subst h0
      have he : insertKey ((k0, v0) :: tl) k0 v = (k0, v) :: tl := by simp [insertKey]
      rw [he, List.map_cons, List.nodup_cons]
      exact ⟨hnd.1, hnd.2⟩
    · simp only [insertKey, if_neg h0, List.map_cons, List.nodup_cons]
      refine ⟨fun hmem => ?_, ih hnd.2⟩
      rcases mem_keys_insertKey tl k v k0 hmem with h | h
      · exact h0 h
      · exact hnd.1 h

theorem entry_unique (l : List (GoVal × CacheItem)) (kv kv' : GoVal × CacheItem)
    (hnd : (l.map Prod.fst).Nodup) (h1 : kv ∈ l) (h2 : kv' ∈ l)
    (hk : kv.1 = kv'.1) : kv = kv' := by
  have e1 : lookupKey l kv.1 = some kv.2 := lookupKey_of_mem l kv.1 kv.2 hnd h1
  have e2 : lookupKey l kv'.1 = some kv'.2 := lookupKey_of_mem l kv'.1 kv'.2 hnd h2
  rw [hk] at e1
  rw [e1] at e2
  have : kv.2 = kv'.2 := Option.some.inj e2
  exact Prod.ext hk this

theorem mem_expiredKeys_iff (now : Int) (l : List (GoVal × CacheItem))
    (hnd : (l.map Prod.fst).Nodup) (kv : GoVal × CacheItem) (hkv : kv ∈ l) :
    kv.1 ∈ expiredKeys now l ↔ expiredAt now kv = true := by
  constructor
  · intro h
    simp only [expiredKeys, List.mem_map] at h
    obtain ⟨kv', hkv', hk⟩ := h
    have hmem := List.mem_filter.mp hkv'
    have : kv' = kv := entry_unique l kv' kv hnd hmem.1 hkv hk
    exact this ▸ hmem.2
  · intro h
    simp only [expiredKeys, List.mem_map]
    exact ⟨kv, List.mem_filter.mpr ⟨hkv, h⟩, rfl⟩

/-! ## Lemmas about the smallest-duration fold -/

theorem minFold_cons (s x : Int) (l : List Int) :
    minFold s (x :: l) = minFold (goMinStep s x) l := rfl

theorem goMinStep_pos_eq_min (s x : Int) (hs : 0 < s) : goMinStep s x = min s x := by
  simp only [goMinStep]
  rcases lt_or_le x s with h | h
  · rw [if_pos (Or.inr h)]
    exact (min_eq_right h.le).symm
  · rw [if_neg (by omega)]
    exact (min_eq_left h).symm

theorem minFold_pos (l : List Int) (s : Int) (hs : 0 < s) (hl : ∀ x ∈ l, 0 < x) :
    minFold s l = match listMin l with
      | none => s
      | some m => min s m := by
  induction l generalizing s with
  | nil => rfl
  | cons x xs ih =>
    have hx : 0 < x := hl x (List.mem_cons_self _ _)
    rw [minFold_cons, goMinStep_pos_eq_min s x hs,
      ih (min s x) (lt_min hs hx) (fun y hy => hl y (List.mem_cons_of_mem _ hy))]
    cases hxs : listMin xs with
    | none => simp [listMin, hxs]
    | some m => simp [listMin, hxs, min_assoc]

theorem minFold_zero (l : List Int) (hl : ∀ x ∈ l, 0 < x) :
    minFold 0 l = (listMin l).getD 0 := by
  cases l with
  | nil => rfl
  | cons x xs =>
    have hx : 0 < x := hl x (List.mem_cons_self _ _)
    rw [minFold_cons, show goMinStep 0 x = x from by simp [goMinStep],
      minFold_pos xs x hx (fun y hy => hl y (List.mem_cons_of_mem _ hy))]
    cases hxs : listMin xs with
    | none => simp [listMin, hxs]
    | some m => simp [listMin, hxs]

theorem survRemaining_pos (now : Int) (tv : List (GoVal × CacheItem)) :
    ∀ x ∈ survRemaining now tv, 0 < x := by
  intro x hx
  simp only [survRemaining, List.mem_map] at hx
  obtain ⟨kv, hkv, rfl⟩ := hx
  have hs := (List.mem_filter.mp hkv).2
  simp only [survFiniteAt, Bool.and_eq_true, decide_eq_true_eq] at hs
  simp only [remainingAt]
  omega

/-! ## The sweep loop -/

theorem expLoop_spec (now : Int) (tv : List (GoVal × CacheItem)) :
    ∀ (s : Int) (evs : List Event) (table : CacheTable),
    (tv.map Prod.fst).Nodup →
    (table.items.map Prod.fst).Nodup →
    (∀ kv ∈ tv, lookupKey table.items kv.1 = some kv.2) →
    expLoop now tv s evs table =
      (minFold s (survRemaining now tv),
        evs ++ sweepEvents table.aboutToDeleteItem now tv,
        { table with items := table.items.filter (fun kv => !decide (kv.1 ∈ expiredKeys now tv)) }) := by
  induction tv with
  | nil =>
    intro s evs table _ _ _
    simp only [expLoop, survRemaining, List.filter_nil, List.map_nil, minFold,
      List.foldl_nil, sweepEvents, List.append_nil, expiredKeys]
    rw [List.filter_eq_self.mpr (fun kv _ => by simp)]
  | cons hd tl ih =>
    intro s evs table hndtv hnd hlk
    obtain ⟨k, item⟩ := hd
    simp only [List.map_cons, List.nodup_cons] at hndtv
    have hk : lookupKey table.items k = some item := hlk (k, item) (List.mem_cons_self _ _)
    by_cases h0 : item.lifeSpan = 0
    · have hexp : expiredAt now (k, item) = false := by simp [expiredAt, h0]
      have hsur : survFiniteAt now (k, item) = false := by simp [survFiniteAt, h0]
      have hloop : expLoop now ((k, item) :: tl) s evs table =
          expLoop now tl s evs table := by
        simp [expLoop, h0]
      rw [hloop,
        ih s evs table hndtv.2 hnd (fun kv hkv => hlk kv (List.mem_cons_of_mem _ hkv))]
      have e1 : survRemaining now ((k, item) :: tl) = survRemaining now tl := by
        simp [survRemaining, List.filter_cons, hsur]
      have e2 : sweepEvents table.aboutToDeleteItem now ((k, item) :: tl) =
          sweepEvents table.aboutToDeleteItem now tl := by
        simp [sweepEvents, hexp]
      have e3 : expiredKeys now ((k, item) :: tl) = expiredKeys now tl := by
        simp [expiredKeys, List.filter_cons, hexp]
      rw [e1, e2, e3]
    · by_cases h1 : item.lifeSpan ≤ now - item.accessedOn
      · have hexp : expiredAt now (k, item) = true := by simp [expiredAt, h0, h1]
        have hloop : expLoop now ((k, item) :: tl) s evs table =
            expLoop now tl s (evs ++ delEvents table.aboutToDeleteItem (k, item))
              { table with items := eraseKey table.items k } := by
          simp [expLoop, h0, h1, deleteInternal, hk, delEvents]
        have hnd' : ((eraseKey table.items k).map Prod.fst).Nodup :=
          nodup_keys_eraseKey table.items k hnd
        have hlk' : ∀ kv ∈ tl, lookupKey (eraseKey table.items k) kv.1 = some kv.2 := by
          intro kv hkv
          have hne : kv.1 ≠ k := fun hh => hndtv.1 (hh ▸ List.mem_map.mpr ⟨kv, hkv, rfl⟩)
          rw [lookupKey_eraseKey_ne table.items k kv.1 hne]
          exact hlk kv (List.mem_cons_of_mem _ hkv)
        rw [hloop, ih s (evs ++ delEvents table.aboutToDeleteItem (k, item)) _ hndtv.2 hnd' hlk']
        have hsur : survFiniteAt now (k, item) = false := by
          simp only [survFiniteAt, Bool.and_eq_true, decide_eq_true_eq]
          simp only [Bool.and_eq_false_iff]
          right
          simp only [decide_eq_false_iff_not]
          omega
        have e1 : survRemaining now ((k, item) :: tl) = survRemaining now tl := by
          simp [survRemaining, List.filter_cons, hsur]
        have e2 : sweepEvents table.aboutToDeleteItem now ((k, item) :: tl) =
            delEvents table.aboutToDeleteItem (k, item) ++
              sweepEvents table.aboutToDeleteItem now tl := by
          simp [sweepEvents, hexp]
        have e4 : expiredKeys now ((k, item) :: tl) = k :: expiredKeys now tl := by
          simp [expiredKeys, List.filter_cons, hexp]
        have e3 : (eraseKey table.items k).filter
              (fun kv => !decide (kv.1 ∈ expiredKeys now tl)) =
            table.items.filter (fun kv => !decide (kv.1 ∈ k :: expiredKeys now tl)) := by
          rw [eraseKey_eq_filter table.items k hnd, List.filter_filter]
          refine List.filter_congr (fun kv _ => ?_)
          by_cases hm1 : kv.1 = k <;> by_cases hm2 : kv.1 ∈ expiredKeys now tl <;>
            simp [hm1, hm2, List.mem_cons]
        rw [e1, e2, e4, e3, List.append_assoc]
      · have hlt : now - item.accessedOn < item.lifeSpan := by omega
        have hexp : expiredAt now (k, item) = false := by
          simp only [expiredAt, Bool.and_eq_false_iff]
          right
          simp only [decide_eq_false_iff_not]
          omega
        have hsur : survFiniteAt now (k, item) = true := by
          simp [survFiniteAt, h0, hlt]
        have hloop : expLoop now ((k, item) :: tl) s evs table =
            expLoop now tl (goMinStep s (remainingAt now (k, item))) evs table := by
          simp [expLoop, h0, h1, goMinStep, remainingAt]
        rw [hloop,
          ih _ evs table hndtv.2 hnd (fun kv hkv => hlk kv (List.mem_cons_of_mem _ hkv))]
        have e1 : survRemaining now ((k, item) :: tl) =
            remainingAt now (k, item) :: survRemaining now tl := by
          simp [survRemaining, List.filter_cons, hsur]
        have e2 : sweepEvents table.aboutToDeleteItem now ((k, item) :: tl) =
            sweepEvents table.aboutToDeleteItem now tl := by
          simp [sweepEvents, hexp]
        have e3 : expiredKeys now ((k, item) :: tl) = expiredKeys now tl := by
          simp [expiredKeys, List.filter_cons, hexp]
        rw [e1, e2, e3, minFold_cons]

theorem expirationCheck_spec (table : CacheTable) (now : Int)
    (hnd : (table.items.map Prod.fst).Nodup) :
    expirationCheck table now =
      (sweepEvents table.aboutToDeleteItem now table.items,
        { table with
          items := table.items.filter (fun kv => !(expiredAt now kv)),
          cleanupInterval := specMinRemaining table.items now,
          cleanupTimer := if 0 < specMinRemaining table.items now then some true
            else table.cleanupTimer.map (fun _ => false) }) := by
  have hself : ∀ kv ∈ table.items, lookupKey table.items kv.1 = some kv.2 :=
    fun kv hkv => lookupKey_of_mem table.items kv.1 kv.2 hnd hkv
  have hpt : ∀ kv ∈ table.items,
      (!decide (kv.1 ∈ expiredKeys now table.items)) = (!(expiredAt now kv)) := by
    intro kv hkv
    have hiff := mem_expiredKeys_iff now table.items hnd kv hkv
    by_cases hmem : kv.1 ∈ expiredKeys now table.items
    · simp [hmem, hiff.mp hmem]
    · have hb : expiredAt now kv = false := by
        cases hb : expiredAt now kv
        · rfl
        · exact absurd (hiff.mpr hb) hmem
      simp [hmem, hb]
  unfold expirationCheck
  dsimp only
  rw [expLoop_spec now table.items 0 []
    { table with cleanupTimer := table.cleanupTimer.map (fun _ => false) } hnd hnd hself]
  dsimp only
  rw [List.nil_append, minFold_zero _ (survRemaining_pos now table.items),
    List.filter_congr hpt]
  rfl

/-- After `Add`, the key maps to the freshly created item, provided the
synchronous sweep that `Add` may trigger does not already find it
expired. -/
theorem lookupKey_add (table : CacheTable) (key : GoVal) (lifeSpan : Int) (data : GoVal)
    (now checkNow : Int)
    (hnd : (table.items.map Prod.fst).Nodup)
    (hfresh : 0 < lifeSpan → checkNow - now < lifeSpan) :
    lookupKey (Add table key lifeSpan data now checkNow).2.2.items key =
      some (NewCacheItem key lifeSpan data now) := by
  have hself : lookupKey (insertKey table.items key (NewCacheItem key lifeSpan data now)) key =
      some (NewCacheItem key lifeSpan data now) :=
    lookupKey_insertKey_self table.items key (NewCacheItem key lifeSpan data now)
  have hnd1 : ((insertKey table.items key (NewCacheItem key lifeSpan data now)).map
      Prod.fst).Nodup :=
    nodup_keys_insertKey table.items key (NewCacheItem key lifeSpan data now) hnd
  simp only [Add, addInternal, NewCacheItem]
  by_cases hc : lifeSpan > 0 ∧ (table.cleanupInterval = 0 ∨ lifeSpan < table.cleanupInterval)
  · rw [if_pos hc]
    dsimp only
    rw [expirationCheck_spec _ checkNow hnd1]
    dsimp only
    refine lookupKey_filter_some _ key _ _ hself ?_
    have h1 : lifeSpan ≠ 0 := by omega
    have h2 : ¬(lifeSpan ≤ checkNow - now) := by
      have := hfresh hc.1
      omega
    simp [expiredAt, NewCacheItem, h1, h2]
  · rw [if_neg hc]
    exact hself

/-! ## Lemmas about KeepAlive traces -/

theorem keepAliveTrace_append (item : CacheItem) (ts1 ts2 : List Int) :
    keepAliveTrace item (ts1 ++ ts2) = keepAliveTrace (keepAliveTrace item ts1) ts2 := by
  induction ts1 generalizing item with
  | nil => rfl
  | cons t ts ih => simp [keepAliveTrace, ih]

theorem keepAliveTrace_createdOn (item : CacheItem) (ts : List Int) :
    (keepAliveTrace item ts).createdOn = item.createdOn := by
  induction ts generalizing item with
  | nil => rfl
  | cons t ts ih => simp [keepAliveTrace, ih, KeepAlive]

theorem keepAliveTrace_accessCount (item : CacheItem) (ts : List Int) :
    (keepAliveTrace item ts).accessCount = item.accessCount + ts.length := by
  induction ts generalizing item with
  | nil => simp [keepAliveTrace]
  | cons t ts ih =>
    simp only [keepAliveTrace, ih, KeepAlive, List.length_cons]
    omega

theorem keepAliveTrace_accessedOn (item : CacheItem) (ts : List Int) :
    (keepAliveTrace item ts).accessedOn = item.accessedOn ∨
      (keepAliveTrace item ts).accessedOn ∈ ts := by
  induction ts generalizing item with
  | nil => exact Or.inl rfl
  | cons t ts ih =>
    rcases ih (KeepAlive item t) with h | h
    · right
      simp only [keepAliveTrace]
      rw [h]
      exact List.mem_cons_self _ _
    · right
      simp only [keepAliveTrace]
      exact List.mem_cons_of_mem _ h

/-! ## Claims -/

/-- C7: `Flush()` replaces the item map with an empty map, resets
`cleanupInterval` to 0, cancels any pending sweep timer (the timer is not
armed afterwards), and fires no `addedItem`, `aboutToDeleteItem`, or
per-item `aboutToExpire` callbacks for the removed entries (its event
trace is empty). -/
theorem flush_spec (table : CacheTable) :
    (Flush table).2.items = [] ∧
    (Flush table).2.cleanupInterval = 0 ∧
    (Flush table).2.cleanupTimer ≠ some true ∧
    (Flush table).1 = [] := by
  refine ⟨rfl, rfl, ?_, rfl⟩
  cases h : table.cleanupTimer <;> simp [Flush, h]

/-- C9: the value `Count()` computes is the number of entries in the item
map, but the operation does not complete normally: it pairs `RLock` with
`Unlock` (instead of `RUnlock`), and Go's `sync.RWMutex.Unlock` without
the write lock held throws `sync: Unlock of unlocked RWMutex`. Starting
from a free mutex, `Count` therefore always panics instead of returning
`len(table.items)`. -/
theorem count_unlock_panics (table : CacheTable) :
    Count table RWMutex.free = .error .unlockOfUnlockedRWMutex := rfl

/-- C10: `Flush()` leaves every table field other than `items`,
`cleanupInterval`, and `cleanupTimer` unchanged: the miss-loader, the
`addedItem` and `aboutToDeleteItem` callback lists, the logger, and the
table name are the same after `Flush` as before. -/
theorem flush_frame (table : CacheTable) :
    (Flush table).2.name = table.name ∧
    (Flush table).2.loadData = table.loadData ∧
    (Flush table).2.addedItem = table.addedItem ∧
    (Flush table).2.aboutToDeleteItem = table.aboutToDeleteItem ∧
    (Flush table).2.logger = table.logger :=
  ⟨rfl, rfl, rfl, rfl, rfl⟩

/-- C3: for an absent key, `Value` fails with `KeyNotFound` when no
loader is configured, and with `KeyNotFoundOrLoadable` when the
configured loader returns no item; in both cases the result carries an
error and no item, and the table is unchanged. -/
theorem value_miss_errors (table : CacheTable) (key : GoVal) (args : List GoVal)
    (now checkNow : Int) (habs : lookupKey table.items key = none) :
    (table.loadData = none →
      Value table key args now checkNow = (.error .keyNotFound, [], table)) ∧
    (∀ f, table.loadData = some f → f key [GoVal.slice args] = none →
      Value table key args now checkNow =
        (.error .keyNotFoundOrLoadable, [Event.loaderCall key [GoVal.slice args]], table)) := by
  constructor
  · intro hld
    simp [Value, habs, hld]
  · intro f hld hf
    simp [Value, habs, hld, hf]

/-- Witness for C3 at concrete inputs: a loaderless table yields
`KeyNotFound`, a table whose loader declines yields
`KeyNotFoundOrLoadable`. -/
theorem value_miss_errors_witness :
    (lookupKey tableEmpty.items (GoVal.vstr "missing") = none ∧
      (Value tableEmpty (GoVal.vstr "missing") [] 0 0).1 = .error .keyNotFound) ∧
    (lookupKey tableLoaderNone.items (GoVal.vstr "missing") = none ∧
      (Value tableLoaderNone (GoVal.vstr "missing") [] 0 0).1 =
        .error .keyNotFoundOrLoadable) := by
  constructor
  · refine ⟨rfl, ?_⟩
    rw [(value_miss_errors tableEmpty (GoVal.vstr "missing") [] 0 0 rfl).1 rfl]
  · refine ⟨rfl, ?_⟩
    rw [(value_miss_errors tableLoaderNone (GoVal.vstr "missing") [] 0 0 rfl).2
      (fun _ _ => none) rfl rfl]

/-- C5: `NotFoundAdd(k, L, d)` returns `false` and performs no mutation
(and fires no callbacks) when `k` already exists, and otherwise inserts
exactly as `Add(k, L, d)` does — same events, same resulting table — and
returns `true`. -/
theorem notFoundAdd_spec (table : CacheTable) (key : GoVal) (lifeSpan : Int)
    (data : GoVal) (now checkNow : Int) :
    ((lookupKey table.items key).isSome →
      NotFoundAdd table key lifeSpan data now checkNow = (false, [], table)) ∧
    (lookupKey table.items key = none →
      NotFoundAdd table key lifeSpan data now checkNow =
        (true, (Add table key lifeSpan data now checkNow).2.1,
          (Add table key lifeSpan data now checkNow).2.2)) := by
  constructor
  · intro h
    simp [NotFoundAdd, h]
  · intro h
    simp [NotFoundAdd, h, Add]

/-- C1: in a sweep (`expirationCheck` at time `now`), items with
`lifeSpan == 0` are never deleted; every other item whose idle time
`now - accessedOn` has reached its `lifeSpan` is deleted through the
internal delete path, and the sweep's event trace is exactly the
concatenation, in scan order, of the per-item delete event blocks — the
table's `aboutToDeleteItem` callbacks followed by the item's
`aboutToExpire` callbacks, both chains as `deleteInternal` fires them;
afterwards `cleanupInterval` equals the minimum remaining time
`lifeSpan - idle_time` over the surviving finite-lifespan items
(`specMinRemaining`), which is 0 when no such item survives. -/
theorem expirationCheck_sweep (table : CacheTable) (now : Int)
    (hnd : (table.items.map Prod.fst).Nodup) :
    (∀ kv ∈ table.items, kv.2.lifeSpan = 0 →
      kv ∈ (expirationCheck table now).2.items) ∧
    (∀ kv ∈ table.items, kv.2.lifeSpan ≠ 0 → kv.2.lifeSpan ≤ now - kv.2.accessedOn →
      lookupKey (expirationCheck table now).2.items kv.1 = none) ∧
    (expirationCheck table now).1 = sweepEvents table.aboutToDeleteItem now table.items ∧
    (expirationCheck table now).2.cleanupInterval = specMinRemaining table.items now := by
  rw [expirationCheck_spec table now hnd]
  dsimp only
  refine ⟨?_, ?_, rfl, rfl⟩
  · intro kv hkv h0
    exact List.mem_filter.mpr ⟨hkv, by simp [expiredAt, h0]⟩
  · intro kv hkv h0 h1
    have hlk : lookupKey table.items kv.1 = some kv.2 :=
      lookupKey_of_mem table.items kv.1 kv.2 hnd hkv
    refine lookupKey_filter_none _ _ kv.2 _ hnd hlk ?_
    simp [expiredAt, h0, h1]

/-- Witness for C1 at a concrete sweep: at time 10 over `tableSweep`, the
immortal item stays, the expired item `"old"` is gone, the event trace is
its delete block (table callback 2 with the item, then expiry callback 21
with the key), and the new `cleanupInterval` is the surviving item's
remaining time. -/
theorem expirationCheck_sweep_witness :
    (tableSweep.items.map Prod.fst).Nodup ∧
    (GoVal.vstr "a", itemA) ∈ (expirationCheck tableSweep 10).2.items ∧
    lookupKey (expirationCheck tableSweep 10).2.items (GoVal.vstr "old") = none ∧
    (expirationCheck tableSweep 10).1 =
      [Event.aboutToDeleteCb 2 oldItem, Event.aboutToExpireCb 21 (GoVal.vstr "old")] ∧
    (expirationCheck tableSweep 10).2.cleanupInterval = specMinRemaining tableSweep.items 10 ∧
    specMinRemaining tableSweep.items 10 = 3 := by
  have h := expirationCheck_sweep tableSweep 10 (by decide)
  refine ⟨by decide,
    h.1 (GoVal.vstr "a", itemA) (by decide) (by decide),
    h.2.1 (GoVal.vstr "old", oldItem) (by decide) (by decide) (by decide),
    ?_, h.2.2.2, by decide⟩
  rw [h.2.2.1]
  rfl

/-- C2: `Add(k, L, d)` immediately followed by `Value(k)` succeeds and
returns an item whose `data` is `d`, whose `lifeSpan` is `L`, and whose
`accessCount` is 1 (the stored fresh item after its first `KeepAlive`).
`hfresh` states that the synchronous sweep `Add` may run happens before
the new item's lifespan has already elapsed — the meaning of
"immediately". -/
theorem add_value_roundtrip (table : CacheTable) (key : GoVal) (lifeSpan : Int)
    (data : GoVal) (tAdd tChk tVal tChk2 : Int)
    (hnd : (table.items.map Prod.fst).Nodup)
    (hfresh : 0 < lifeSpan → tChk - tAdd < lifeSpan) :
    (Value (Add table key lifeSpan data tAdd tChk).2.2 key [] tVal tChk2).1 =
      .ok (KeepAlive (NewCacheItem key lifeSpan data tAdd) tVal) ∧
    (KeepAlive (NewCacheItem key lifeSpan data tAdd) tVal).data = data ∧
    (KeepAlive (NewCacheItem key lifeSpan data tAdd) tVal).lifeSpan = lifeSpan ∧
    (KeepAlive (NewCacheItem key lifeSpan data tAdd) tVal).accessCount = 1 := by
  have hl := lookupKey_add table key lifeSpan data tAdd tChk hnd hfresh
  refine ⟨?_, rfl, rfl, rfl⟩
  simp only [Value, hl]

/-- Witness for C2 at concrete inputs: adding `"b" ↦ vint 9` with
lifespan 5 to `tableA` at time 0 and reading it back at time 0 yields the
item with data `vint 9`, lifespan 5 and access count 1. -/
theorem add_value_roundtrip_witness :
    ((tableA.items.map Prod.fst).Nodup ∧ ((0 : Int) < 5 → (0 : Int) - 0 < 5)) ∧
    (Value (Add tableA (GoVal.vstr "b") 5 (GoVal.vint 9) 0 0).2.2 (GoVal.vstr "b") [] 0 0).1 =
      .ok (KeepAlive (NewCacheItem (GoVal.vstr "b") 5 (GoVal.vint 9) 0) 0) ∧
    (KeepAlive (NewCacheItem (GoVal.vstr "b") 5 (GoVal.vint 9) 0) 0).data = GoVal.vint 9 ∧
    (KeepAlive (NewCacheItem (GoVal.vstr "b") 5 (GoVal.vint 9) 0) 0).lifeSpan = 5 ∧
    (KeepAlive (NewCacheItem (GoVal.vstr "b") 5 (GoVal.vint 9) 0) 0).accessCount = 1 := by
  have h := add_value_roundtrip tableA (GoVal.vstr "b") 5 (GoVal.vint 9) 0 0 0 0
    (by decide) (by decide)
  exact ⟨⟨by decide, by decide⟩, h.1, h.2.1, h.2.2.1, h.2.2.2⟩

/-- C6 counterexample: the loader is not invoked with `(k, extraArgs)`.
`Value` passes the variadic slice unspread, so `pickyLoader` — which
returns an item exactly when its variadic argument list is
`[vint 1, vint 2]` — is instead invoked with the single wrapped argument
`[slice [vint 1, vint 2]]`, declines, and `Value` fails with
`KeyNotFoundOrLoadable` even though the claim predicts a successful load;
the recorded invocation shows the wrapped argument list, which differs
from `extraArgs`. -/
theorem value_loader_args_cex :
    pickyLoader (GoVal.vstr "k") [GoVal.vint 1, GoVal.vint 2] = some loadedItem ∧
    (Value tablePicky (GoVal.vstr "k") [GoVal.vint 1, GoVal.vint 2] 0 0).1 =
      .error .keyNotFoundOrLoadable ∧
    (Value tablePicky (GoVal.vstr "k") [GoVal.vint 1, GoVal.vint 2] 0 0).2.1 =
      [Event.loaderCall (GoVal.vstr "k") [GoVal.slice [GoVal.vint 1, GoVal.vint 2]]] ∧
    [GoVal.slice [GoVal.vint 1, GoVal.vint 2]] ≠ [GoVal.vint 1, GoVal.vint 2] := by
  refine ⟨by decide, rfl, rfl, by decide⟩

/-- C6 (amended): for an absent key with a loader configured, `Value`
invokes the loader with the key and a single variadic argument holding
the `extraArgs` slice itself (the Go call site passes the slice without
spreading it); when the loader returns an item, the loader's item object
is not stored — a fresh item carrying that item's `data` and `lifeSpan`
(with new `createdOn` and zero `accessCount` lineage) is created and
inserted under the key via `Add` — and the loader's item is what is
returned to the caller. -/
theorem value_loader_spec (table : CacheTable) (key : GoVal) (args : List GoVal)
    (now checkNow : Int) (f : GoVal → List GoVal → Option CacheItem) (it : CacheItem)
    (hnd : (table.items.map Prod.fst).Nodup)
    (habs : lookupKey table.items key = none)
    (hld : table.loadData = some f)
    (hf : f key [GoVal.slice args] = some it)
    (hfresh : 0 < it.lifeSpan → checkNow - now < it.lifeSpan) :
    (Value table key args now checkNow).1 = .ok it ∧
    (Value table key args now checkNow).2.1.head? =
      some (Event.loaderCall key [GoVal.slice args]) ∧
    lookupKey (Value table key args now checkNow).2.2.items key =
      some (NewCacheItem key it.lifeSpan it.data now) := by
  have hl := lookupKey_add table key it.lifeSpan it.data now checkNow hnd hfresh
  have hv : Value table key args now checkNow =
      (.ok it, Event.loaderCall key [GoVal.slice args] ::
        (Add table key it.lifeSpan it.data now checkNow).2.1,
        (Add table key it.lifeSpan it.data now checkNow).2.2) := by
    simp [Value, habs, hld, hf]
  rw [hv]
  exact ⟨rfl, rfl, hl⟩

/-- Witness for the amended C6 at concrete inputs: a miss on
`tableLoaderSome` returns the loader's `loadedItem` itself, records the
wrapped loader invocation, and stores a fresh item carrying
`loadedItem`'s data and lifespan with a new lineage. -/
theorem value_loader_spec_witness :
    lookupKey tableLoaderSome.items (GoVal.vstr "k") = none ∧
    (Value tableLoaderSome (GoVal.vstr "k") [] 0 0).1 = .ok loadedItem ∧
    (Value tableLoaderSome (GoVal.vstr "k") [] 0 0).2.1.head? =
      some (Event.loaderCall (GoVal.vstr "k") [GoVal.slice []]) ∧
    lookupKey (Value tableLoaderSome (GoVal.vstr "k") [] 0 0).2.2.items (GoVal.vstr "k") =
      some (NewCacheItem (GoVal.vstr "k") loadedItem.lifeSpan loadedItem.data 0) := by
  have h := value_loader_spec tableLoaderSome (GoVal.vstr "k") [] 0 0
    (fun _ _ => some loadedItem) loadedItem (by decide) rfl rfl rfl (by decide)
  exact ⟨rfl, h.1, h.2.1, h.2.2⟩

/-- C8: across creation by `NewCacheItem` and any sequence of subsequent
`KeepAlive` calls at times no earlier than the creation time,
`accessedOn >= createdOn` holds at every intermediate state (`pre` is an
arbitrary prefix of the accesses) and `accessCount` never decreases from
any state to any later one. -/
theorem item_stat_invariants (key : GoVal) (lifeSpan : Int) (data : GoVal)
    (t0 : Int) (pre suf : List Int)
    (hmono : ∀ t ∈ pre ++ suf, t0 ≤ t) :
    ((keepAliveTrace (NewCacheItem key lifeSpan data t0) pre).createdOn ≤
      (keepAliveTrace (NewCacheItem key lifeSpan data t0) pre).accessedOn) ∧
    ((keepAliveTrace (NewCacheItem key lifeSpan data t0) pre).accessCount ≤
      (keepAliveTrace (NewCacheItem key lifeSpan data t0) (pre ++ suf)).accessCount) := by
  constructor
  · rw [keepAliveTrace_createdOn]
    rcases keepAliveTrace_accessedOn (NewCacheItem key lifeSpan data t0) pre with h | h
    · rw [h]
      exact le_refl t0
    · exact hmono _ (List.mem_append.mpr (Or.inl h))
  · rw [keepAliveTrace_append,
      keepAliveTrace_accessCount (keepAliveTrace (NewCacheItem key lifeSpan data t0) pre) suf]
    omega

/-- Witness for C8 at concrete inputs: item created at time 5, accessed
at 6, then at 8 and 7; the invariant holds at the intermediate state and
the hit counter does not decrease. -/
theorem item_stat_invariants_witness :
    ((5 : Int) ≤ 6 ∧ (5 : Int) ≤ 8 ∧ (5 : Int) ≤ 7) ∧
    ((keepAliveTrace (NewCacheItem (GoVal.vstr "a") 0 (GoVal.vint 7) 5) [6]).createdOn ≤
      (keepAliveTrace (NewCacheItem (GoVal.vstr "a") 0 (GoVal.vint 7) 5) [6]).accessedOn) ∧
    ((keepAliveTrace (NewCacheItem (GoVal.vstr "a") 0 (GoVal.vint 7) 5) [6]).accessCount ≤
      (keepAliveTrace (NewCacheItem (GoVal.vstr "a") 0 (GoVal.vint 7) 5)
        ([6] ++ [8, 7])).accessCount) := by
  have h := item_stat_invariants (GoVal.vstr "a") 0 (GoVal.vint 7) 5 [6] [8, 7] (by decide)
  exact ⟨⟨by decide, by decide, by decide⟩, h.1, h.2⟩

/-- C4: when `k` is present, `Delete(k)` fires the table's
`aboutToDeleteItem` callbacks with the item, then the item's own
`aboutToExpire` callbacks with the key, in that order, and removes `k`'s
entry from the map; when `k` is absent, it fails with `KeyNotFound` and
leaves the table unchanged (no events fire). -/
theorem delete_spec (table : CacheTable) (key : GoVal)
    (hnd : (table.items.map Prod.fst).Nodup) :
    (∀ r, lookupKey table.items key = some r →
      Delete table key =
        (.ok r,
          table.aboutToDeleteItem.map (fun cb => Event.aboutToDeleteCb cb r) ++
            r.aboutToExpire.map (fun cb => Event.aboutToExpireCb cb key),
          { table with items := eraseKey table.items key }) ∧
      lookupKey (Delete table key).2.2.items key = none) ∧
    (lookupKey table.items key = none →
      Delete table key = (.error .keyNotFound, [], table)) := by
  constructor
  · intro r hr
    constructor
    · simp [Delete, deleteInternal, hr]
    · simp only [Delete, deleteInternal, hr]
      rw [eraseKey_eq_filter table.items key hnd]
      exact lookupKey_filter_none _ _ r _ hnd hr (by simp)
  · intro hn
    simp [Delete, deleteInternal, hn]

/-- Witness for C4 at concrete inputs: deleting the present key `"a"`
from `tableA` fires callbacks 2 and 3 with the item and then 10 and 11
with the key and removes the entry; deleting the absent key `"b"` fails
with `KeyNotFound` and changes nothing. -/
theorem delete_spec_witness :
    ((tableA.items.map Prod.fst).Nodup ∧
      lookupKey tableA.items (GoVal.vstr "a") = some itemA) ∧
    (Delete tableA (GoVal.vstr "a")).2.1 =
      [Event.aboutToDeleteCb 2 itemA, Event.aboutToDeleteCb 3 itemA,
        Event.aboutToExpireCb 10 (GoVal.vstr "a"),
        Event.aboutToExpireCb 11 (GoVal.vstr "a")] ∧
    lookupKey (Delete tableA (GoVal.vstr "a")).2.2.items (GoVal.vstr "a") = none ∧
    Delete tableA (GoVal.vstr "b") = (.error .keyNotFound, [], tableA) := by
  have h := delete_spec tableA (GoVal.vstr "a") (by decide)
  have hp := h.1 itemA (by decide)
  have h2 := delete_spec tableA (GoVal.vstr "b") (by decide)
  refine ⟨⟨by decide, by decide⟩, ?_, hp.2, h2.2 (by decide)⟩
  rw [hp.1]
  rfl

/-- Witness for C5 at concrete inputs: an occupied key is refused without
mutation, a fresh key is inserted as `Add` would insert it. -/
theorem notFoundAdd_spec_witness :
    ((lookupKey tableA.items (GoVal.vstr "a")).isSome = true ∧
      NotFoundAdd tableA (GoVal.vstr "a") 5 (GoVal.vint 1) 0 0 = (false, [], tableA)) ∧
    (lookupKey tableA.items (GoVal.vstr "b") = none ∧
      (NotFoundAdd tableA (GoVal.vstr "b") 5 (GoVal.vint 1) 0 0).1 = true) := by
  constructor
  · exact ⟨rfl, (notFoundAdd_spec tableA (GoVal.vstr "a") 5 (GoVal.vint 1) 0 0).1 rfl⟩
  · refine ⟨rfl, ?_⟩
    rw [(notFoundAdd_spec tableA (GoVal.vstr "b") 5 (GoVal.vint 1) 0 0).2 rfl]

end Go2cache
